import Mathlib

/-!
Verification development for the T0VE host communication stack.

The definitions below are shallow embeddings of the Python sources:

- `host_application_drivers/host_device_serial.py` (framing, TX queue),
- `host_application_drivers/host_device_state_serdes.py` (receive routing,
  port-status publishing),
- `host_application_drivers/util_match_type_runtime.py` (structural type match),
- `host_application_drivers/util_flat_dict.py` (flatten / unflatten),
- `host_application_drivers/ui_dict_viewer_aggregator.py` (mirror updates),
- `testing/test_file_request.py` (chunked file read).

Machine integers are modelled as `Nat` with explicit masking where the code
masks; bytes are `Nat` values; Python byte strings are `List Nat`; fallible
code returns `Option`.
-/

namespace T0VE

/-! ## Python runtime value model

Python values that flow through `match_type`, `FlatDict` and the dict-viewer
aggregator.  Dictionaries are association lists in insertion order, as in
CPython; keys in this code base are strings.  Floats never participate in any
arithmetic here, so a float is an opaque tag.  Enum members carry the name of
their enum class (two members match types only within the same class).
The `isinstance(example, type)` branch of `match_type` (template given as a
class object) is not modelled: the aggregator always stores concrete values
as templates. -/

inductive PyVal where
  | pyBool (b : Bool)
  | pyInt (n : Int)
  | pyFloat (bits : Int)
  | pyStr (s : String)
  | pyEnum (cls : String) (tag : String)
  | pyNone
  | pyList (xs : List PyVal)
  | pyTuple (xs : List PyVal)
  | pyDict (entries : List (String × PyVal))

/-- Python runtime classes of the values above. -/
inductive PyClass where
  | cBool | cInt | cFloat | cStr | cNoneType | cList | cTuple | cDict
  | cEnum (cls : String)
deriving DecidableEq

/-- Concrete class of a value, the Python `type(v)`. -/
def PyVal.cls : PyVal → PyClass
  | .pyBool _ => .cBool
  | .pyInt _ => .cInt
  | .pyFloat _ => .cFloat
  | .pyStr _ => .cStr
  | .pyEnum c _ => .cEnum c
  | .pyNone => .cNoneType
  | .pyList _ => .cList
  | .pyTuple _ => .cTuple
  | .pyDict _ => .cDict

/-- Python `isinstance(v, C)` on the classes in the model: class identity,
except that `bool` is a subclass of `int` in Python. -/
def isinstanceOf (c target : PyClass) : Bool :=
  decide (c = target) || (decide (c = .cBool) && decide (target = .cInt))

/-- Membership of a key in an association list (`k in d` for Python dicts). -/
def keyMem (k : String) : List (String × PyVal) → Bool
  | [] => false
  | (k0, _) :: rest => decide (k = k0) || keyMem k rest

/-- Python `value.keys() == example.keys()`: dict key views compare as sets. -/
def keySetEq (a b : List (String × PyVal)) : Bool :=
  a.all (fun kv => keyMem kv.1 b) && b.all (fun kv => keyMem kv.1 a)

/-- Python `d[k]` as an option: the first entry with key `k`. -/
def lookupEntry (k : String) : List (String × PyVal) → Option PyVal
  | [] => none
  | (k0, v) :: rest => if k0 = k then some v else lookupEntry k rest

mutual

/-- Embedding of `match_type` from `util_match_type_runtime.py`: mirror of the
top-level `isinstance(value, type(example))` guard, then the dict branch
(key-set equality plus per-key recursion), then the list/tuple branch
(length equality plus pairwise recursion), then `True` for everything else. -/
def match_type (value tmpl : PyVal) : Bool :=
  if !(isinstanceOf value.cls tmpl.cls) then false
  else
    match value, tmpl with
    | .pyDict ve, .pyDict ee => keySetEq ve ee && dictMatch ve ee
    | .pyList vs, .pyList es => decide (vs.length = es.length) && listMatch vs es
    | .pyTuple vs, .pyTuple es => decide (vs.length = es.length) && listMatch vs es
    | _, _ => true

/-- The `for key in value.keys()` loop of `match_type` over a dict value. -/
def dictMatch (ve ee : List (String × PyVal)) : Bool :=
  match ve with
  | [] => true
  | (k, v) :: rest =>
    (match lookupEntry k ee with
     | some ev => match_type v ev
     | none => false) && dictMatch rest ee

/-- The element loop of `match_type` over a list or tuple value. -/
def listMatch (vs es : List PyVal) : Bool :=
  match vs, es with
  | [], [] => true
  | v :: vs0, e :: es0 => match_type v e && listMatch vs0 es0
  | _, _ => false

end

/-- Containers in the sense of `match_type` (dict, list, tuple). -/
def isContainer : PyVal → Bool
  | .pyDict _ => true
  | .pyList _ => true
  | .pyTuple _ => true
  | _ => false

mutual

/-- Modelled from the spec: shape characterization of the type match.  `v`
matches `tmpl` when both have the same tree shape (same container kind at
every internal node), sequence nodes have equal length and pairwise matching
elements, map nodes have identical key sets and pairwise matching values, and
leaves satisfy the given leaf rule on their concrete classes.  Instantiated
with strict class equality this is the claim wording; instantiated with
`isinstanceOf` it is the amended wording. -/
def shapeMatch (leafOk : PyClass → PyClass → Bool) : PyVal → PyVal → Bool
  | .pyDict ve, .pyDict ee => keySetEq ve ee && shapeMatchDict leafOk ve ee
  | .pyList vs, .pyList es => decide (vs.length = es.length) && shapeMatchList leafOk vs es
  | .pyTuple vs, .pyTuple es => decide (vs.length = es.length) && shapeMatchList leafOk vs es
  | v, e => !(isContainer v) && !(isContainer e) && leafOk v.cls e.cls

/-- Pairwise shape matching of dict values, keyed through the template. -/
def shapeMatchDict (leafOk : PyClass → PyClass → Bool)
    (ve ee : List (String × PyVal)) : Bool :=
  match ve with
  | [] => true
  | (k, v) :: rest =>
    (match lookupEntry k ee with
     | some ev => shapeMatch leafOk v ev
     | none => false) && shapeMatchDict leafOk rest ee

/-- Pairwise shape matching of sequence elements. -/
def shapeMatchList (leafOk : PyClass → PyClass → Bool) (vs es : List PyVal) : Bool :=
  match vs, es with
  | [], [] => true
  | v :: vs0, e :: es0 => shapeMatch leafOk v e && shapeMatchList leafOk vs0 es0
  | _, _ => false

end

/-- Leaf rule of the claim as stated: identical concrete runtime types. -/
def specStrictMatch (v e : PyVal) : Bool :=
  shapeMatch (fun a b => decide (a = b)) v e

/-- Leaf rule as the code implements it: Python `isinstance` semantics. -/
def specIsinstMatch (v e : PyVal) : Bool :=
  shapeMatch isinstanceOf v e

mutual

/-- Well-formedness of a value as a CPython object: every dict node has
pairwise-distinct keys (a real `dict` cannot hold duplicates). -/
def PyVal.wf : PyVal → Bool
  | .pyDict es => keysNodup es && wfEntries es
  | .pyList xs => wfList xs
  | .pyTuple xs => wfList xs
  | _ => true

/-- Key distinctness of one dict node. -/
def keysNodup : List (String × PyVal) → Bool
  | [] => true
  | (k, _) :: rest => !(keyMem k rest) && keysNodup rest

/-- Well-formedness of all values of a dict node. -/
def wfEntries : List (String × PyVal) → Bool
  | [] => true
  | (_, v) :: rest => PyVal.wf v && wfEntries rest

/-- Well-formedness of all elements of a sequence node. -/
def wfList : List PyVal → Bool
  | [] => true
  | v :: rest => PyVal.wf v && wfList rest

end

/-! ## FlatDict (`util_flat_dict.py`) -/

namespace FlatDict

/-- Embedding of `FlatDict.flatten`: depth-first walk over the entries of a
nested dict in insertion order; a dict value recurses with its key prepended
to every child path, any other value becomes a leaf with a singleton path. -/
def flatten : List (String × PyVal) → List (List String × PyVal)
  | [] => []
  | (k, .pyDict sub) :: rest =>
    (flatten sub).map (fun ckv => (k :: ckv.1, ckv.2)) ++ flatten rest
  | (k, v) :: rest => ([k], v) :: flatten rest

/-- Python `d[k] = v` on a dict: replace the value of an existing key in
place, otherwise append the new key at the end. -/
def setOrAppend (d : List (String × PyVal)) (k : String) (v : PyVal) :
    List (String × PyVal) :=
  match d with
  | [] => [(k, v)]
  | (k0, v0) :: rest =>
    if k0 = k then (k0, v) :: rest else (k0, v0) :: setOrAppend rest k v

/-- One iteration group of the `unflatten` loop body: walk `path[:-1]`
creating missing sub-dicts, then assign the last component.  Returns `none`
exactly where Python would raise: descending through an existing non-dict
value (`TypeError`), or an empty path (`IndexError` on `path[-1]`). -/
def insertPath (d : List (String × PyVal)) : List String → PyVal →
    Option (List (String × PyVal))
  | [], _ => none
  | [k], v => some (setOrAppend d k v)
  | k :: k1 :: rest, v =>
    match lookupEntry k d with
    | none =>
      (insertPath [] (k1 :: rest) v).map (fun sub => d ++ [(k, .pyDict sub)])
    | some (.pyDict sub) =>
      (insertPath sub (k1 :: rest) v).map (fun sub2 => setOrAppend d k (.pyDict sub2))
    | some _ => none

/-- Loop of `FlatDict.unflatten` over the flat entries, threading the result. -/
def unflattenGo (acc : List (String × PyVal)) :
    List (List String × PyVal) → Option (List (String × PyVal))
  | [] => some acc
  | (path, v) :: rest =>
    match insertPath acc path v with
    | none => none
    | some acc2 => unflattenGo acc2 rest

/-- Embedding of `FlatDict.unflatten`, starting from an empty dict. -/
def unflatten (flat : List (List String × PyVal)) :
    Option (List (String × PyVal)) :=
  unflattenGo [] flat

end FlatDict

mutual

/-- Conformance of one stored value of a reference record: a dict value must
be non-empty and recursively conforming, `None` leaves are excluded, any
other value is a legal leaf. -/
def refConformingVal : PyVal → Bool
  | .pyDict sub => !sub.isEmpty && refConforming sub
  | .pyNone => false
  | _ => true

/-- Reference-conforming record in the sense of the claim: a nested dict
whose leaves are non-dict, non-None values (so no empty dict ever occurs
below the root, an empty dict being a dict leaf), with genuine CPython dict
nodes (no duplicate keys). -/
def refConforming : List (String × PyVal) → Bool
  | [] => true
  | (k, v) :: rest =>
    !(keyMem k rest) && refConformingVal v && refConforming rest

end

/-! ## Serial port layer (`host_device_serial.py`) -/

/-- Default start code of `HostSerial`. -/
def START_CODE : Nat := 0xEE

/-- TX framing of `HostSerial.write_frame`: start code, two big-endian length
bytes, then the payload, with the masks the code applies. -/
def frameBytes (payload : List Nat) : List Nat :=
  [START_CODE &&& 0xFF, (payload.length >>> 8) &&& 0xFF, payload.length &&& 0xFF]
    ++ payload

/-- Outcome of one `write_frame` call. -/
inductive TxOutcome where
  | enqueued
  | dropped_full
  | rejected_too_large
deriving DecidableEq

/-- Embedding of `HostSerial.write_frame` acting on the TX queue (a
`Queue(maxsize=8)`): payloads longer than `0xFFFF` raise `ValueError` before
anything is enqueued; `put_nowait` on a full queue raises `Full`, which is
caught, logged and dropped; otherwise the framed payload joins the tail. -/
def write_frame (tx_queue : List (List Nat)) (payload : List Nat) :
    List (List Nat) × TxOutcome :=
  if 0xFFFF < payload.length then (tx_queue, .rejected_too_large)
  else if 8 ≤ tx_queue.length then (tx_queue, .dropped_full)
  else (tx_queue ++ [frameBytes payload], .enqueued)

/-- The queue after a sequence of `write_frame` calls. -/
def writeFrames (tx_queue : List (List Nat)) (payloads : List (List Nat)) :
    List (List Nat) :=
  payloads.foldl (fun q p => (write_frame q p).1) tx_queue

/-- Embedding of `HostSerial._process_rx_buffer` with explicit fuel: scan for
the first start code (no start code clears the buffer), drop the noise before
it, wait when fewer than three bytes remain, decode the big-endian length,
wait when the payload is incomplete, otherwise emit the payload, delete the
consumed prefix and loop.  Every looping iteration consumes at least three
bytes, so fuel equal to the buffer length always suffices
(`processRxGo_congr` below makes the fuel irrelevant). -/
def processRxGo (fuel : Nat) (buf : List Nat) : List (List Nat) × List Nat :=
  match fuel with
  | 0 => ([], buf)
  | fuel + 1 =>
    match buf.findIdx? (fun b => b == (START_CODE &&& 0xFF)) with
    | none => ([], [])
    | some i =>
      let b := buf.drop i
      if b.length < 3 then ([], b)
      else
        let len := ((b.getD 1 0) <<< 8) ||| (b.getD 2 0)
        if b.length < 3 + len then ([], b)
        else
          let payload := (b.drop 3).take len
          let out := processRxGo fuel (b.drop (3 + len))
          (payload :: out.1, out.2)

/-- One call of `_process_rx_buffer` on buffer `buf`: the emitted frames in
order, and the remaining buffer. -/
def processRx (buf : List Nat) : List (List Nat) × List Nat :=
  processRxGo buf.length buf

/-- Concatenation of the wire frames of a payload sequence. -/
def framesConcat (ps : List (List Nat)) : List Nat :=
  (ps.map frameBytes).foldr (fun a b => a ++ b) []

/-! ## Serdes receive routing (`host_device_state_serdes.py`) -/

/-- Opaque stand-in for a decoded `NodeState` protobuf message (its schema is
out of scope; only its identity travels through the routing). -/
structure NodeStateMsg where
  raw : Nat
deriving DecidableEq

/-- A `NeuralMemFileAccess` message: the fields used by the serdes routing
and by the chunked-read loop of `test_file_request.py`. -/
structure NeuralMemFileAccess where
  filename : String
  offset : Nat
  read_nwrite : Bool
  data : List Nat
deriving DecidableEq

/-- A decoded `Debug` message: level name and text. -/
structure DebugMsg where
  level : String
  msg : String
deriving DecidableEq

/-- Result of `betterproto.which_one_of(comm, "payload")` on an inbound
frame, as the receive thread discriminates it. -/
inductive CommPayload where
  | node_state (s : NodeStateMsg)
  | neural_mem_request (f : NeuralMemFileAccess)
  | debug_message (d : DebugMsg)
  | unknown
deriving DecidableEq

/-- The two acknowledgement events of `HostDeviceStateSerdes`:
`rx_frame_received_signal` (state ack, awaited by the transmit thread) and
`rx_file_response_signal` (file ack, awaited by the file-request thread). -/
structure RxSignals where
  rx_frame_received : Bool
  rx_file_response : Bool
deriving DecidableEq

/-- An outbound publish performed by the receive thread. -/
inductive SerdesPub where
  | pubNodeState (topic : String) (s : NodeStateMsg)
  | pubFileResponse (topic : String) (f : NeuralMemFileAccess)
  | pubDebug (topic : String) (msg : String)
deriving DecidableEq

/-- Embedding of the per-frame body of `_receive_thread` after a successful
parse: route by payload kind, publish on the corresponding topic, and set the
corresponding acknowledgement signal — the state signal only for
`node_state`, the file signal only for `neural_mem_request`, neither for
`debug_message` or an unknown payload. -/
def receiveStep (root : String) (sig : RxSignals) (p : CommPayload) :
    RxSignals × List SerdesPub :=
  match p with
  | .node_state s =>
    (⟨true, sig.rx_file_response⟩, [.pubNodeState (root ++ ".status") s])
  | .neural_mem_request f =>
    (⟨sig.rx_frame_received, true⟩, [.pubFileResponse (root ++ ".file_response") f])
  | .debug_message d =>
    (sig, [.pubDebug (root ++ ".debug." ++ d.level) d.msg])
  | .unknown => (sig, [])

/-- A value published on a port-status topic. -/
inductive PortPubVal where
  | pvBool (b : Bool)
  | pvStr (s : String)
  | pvNat (n : Nat)
deriving DecidableEq

/-- Embedding of `_pub_port_state`: the five `pub.sendMessage` calls it
performs, in order, with the `None`-to-`"---"` substitutions.  Despite the
comment in the source claiming a change-only topic cache, every call is
unconditional. -/
def pubPortState (root : String) (connected : Bool)
    (portName serialNumber : Option String) (enq space : Nat) :
    List (String × PortPubVal) :=
  [ (root ++ ".port.status.connected", .pvBool connected),
    (root ++ ".port.status.port_name", .pvStr (portName.getD "---")),
    (root ++ ".port.status.serial_number", .pvStr (serialNumber.getD "---")),
    (root ++ ".port.status.commands_enqueued", .pvNat enq),
    (root ++ ".port.status.command_queue_space", .pvNat space) ]

/-- The publishes of one `_trigger_connect_thread` iteration: the thread
calls `_pub_port_state` unconditionally on every cycle. -/
def triggerCyclePubs (root : String) (connected : Bool)
    (portName serialNumber : Option String) (enq space : Nat) :
    List (String × PortPubVal) :=
  pubPortState root connected portName serialNumber enq space

/-- Number of publishes on one topic within a publish trace. -/
def countTopic (trace : List (String × PortPubVal)) (topic : String) : Nat :=
  (trace.filter (fun e => e.1 == topic)).length

/-! ## Chunked file read (`testing/test_file_request.py`) -/

/-- Chunk bound of the test tool. -/
def MAX_CHUNK_SIZE : Nat := 16384

/-- Retry bound (`max_retries`) of `_transfer_file`. -/
def max_retries : Nat := 3

/-- The read request `_transfer_file` builds for one attempt: requested
length is carried by a zero-filled `data` field, `read_nwrite` set. -/
def buildReadRequest (filename : String) (offset chunk_size : Nat) :
    NeuralMemFileAccess :=
  ⟨filename, offset, true, List.replicate chunk_size 0⟩

/-- Acceptance test the loop applies to the response of one attempt:
a response arrived before the timeout, its data is non-empty, and it matches
the request by filename, offset and direction. -/
def acceptResponse (filename : String) (offset : Nat)
    (r : Option NeuralMemFileAccess) : Bool :=
  match r with
  | none => false
  | some resp =>
    decide (0 < resp.data.length) && (resp.filename == filename)
      && (resp.offset == offset) && resp.read_nwrite

/-- The retry loop (`for attempt in range(max_retries)`) for one chunk.
`resps` is the environment oracle: the response (or timeout, `none`) each
attempt observes, consumed one element per attempt; an exhausted oracle
behaves as timeouts.  Each attempt issues `buildReadRequest` for the same
filename, offset and chunk size; the loop stops at the first accepted
response, else gives up after `attempts` tries. -/
def tryReadChunk (filename : String) (offset chunk_size : Nat) :
    Nat → List (Option NeuralMemFileAccess) →
    (Option NeuralMemFileAccess × List (Option NeuralMemFileAccess))
  | 0, resps => (none, resps)
  | attempts + 1, resps =>
    let read_request := buildReadRequest filename offset chunk_size
    let step : Option NeuralMemFileAccess × List (Option NeuralMemFileAccess) :=
      match resps with
      | [] => (none, [])
      | r :: rest => (r, rest)
    if acceptResponse read_request.filename read_request.offset step.1 then
      (step.1, step.2)
    else tryReadChunk filename offset chunk_size attempts step.2

/-- The `while offset < filesize` loop of `_transfer_file` with explicit
fuel: compute the chunk size `min(remaining, MAX_CHUNK_SIZE)`, run the retry
loop, on success append the response data and advance the offset by its
length, on failure abort the transfer (`none`).  Fuel `filesize + 1` always
suffices because an accepted response has non-empty data, so the offset
strictly advances. -/
def transferFileGo (filename : String) (filesize : Nat) :
    Nat → Nat → List Nat → List (Option NeuralMemFileAccess) → Option (List Nat)
  | 0, _, _, _ => none
  | fuel + 1, offset, file_data, resps =>
    if offset < filesize then
      let chunk_size := min (filesize - offset) MAX_CHUNK_SIZE
      match tryReadChunk filename offset chunk_size max_retries resps with
      | (some resp, rest) =>
        transferFileGo filename filesize fuel (offset + resp.data.length)
          (file_data ++ resp.data) rest
      | (none, _) => none
    else some file_data

/-- Whole-file transfer of `_transfer_file` against a response oracle. -/
def transferFile (filename : String) (filesize : Nat)
    (resps : List (Option NeuralMemFileAccess)) : Option (List Nat) :=
  transferFileGo filename filesize (filesize + 1) 0 [] resps

/-! ## Mirror layer (`ui_dict_viewer_aggregator.py`) -/

/-- A flattened path, the tuple key of the canonical flat map. -/
abbrev PathKey := List String

/-- The canonical flat map `self._flat_dict` of the aggregator. -/
abbrev FlatMap := List (PathKey × PyVal)

/-- Lookup in the flat map (`path in self._flat_dict`, `self._flat_dict[path]`). -/
def flLookup (m : FlatMap) (path : PathKey) : Option PyVal :=
  match m with
  | [] => none
  | (p0, v0) :: rest => if p0 = path then some v0 else flLookup rest path

/-- Assignment `self._flat_dict[path] = v` on an existing key: replace the
value in place; an absent key would append, as in any Python dict. -/
def flAssign (m : FlatMap) (path : PathKey) (v : PyVal) : FlatMap :=
  match m with
  | [] => [(path, v)]
  | (p0, v0) :: rest =>
    if p0 = path then (p0, v) :: rest else (p0, v0) :: flAssign rest path v

/-- Outcome reported by one `_update_flattened_dict` call. -/
structure UpdateOutcome where
  updated : Bool
  warned : Bool
deriving DecidableEq

/-- Embedding of `DictViewerAggregator._update_flattened_dict`: a path
missing from the flat map warns and reports no update; a proposed value that
fails `match_type` against the current value at the path warns and reports no
update; otherwise the value is stored and the update reported.  Every public
mutation (`push`, `push_path`, and the subscribed `entries.set`,
`nested.set` and `frontend.get` handlers) funnels into this function, one
call per leaf path. -/
def updateFlattenedDict (m : FlatMap) (path : PathKey) (v : PyVal) :
    UpdateOutcome × FlatMap :=
  match flLookup m path with
  | none => (⟨false, true⟩, m)
  | some cur =>
    if match_type v cur then (⟨true, false⟩, flAssign m path v)
    else (⟨false, true⟩, m)

/-- A mirror operation after construction: a leaf mutation funnelled into
`_update_flattened_dict` (any source), or a read (`pull` / `pull_path`),
which deep-copies under the lock and never mutates. -/
inductive MirrorOp where
  | propose (path : PathKey) (v : PyVal)
  | read

/-- State transition of the canonical flat map under one mirror operation. -/
def mirrorStep (m : FlatMap) : MirrorOp → FlatMap
  | .propose path v => (updateFlattenedDict m path v).2
  | .read => m

/-- The flat map after a sequence of mirror operations. -/
def mirrorRun (m0 : FlatMap) (ops : List MirrorOp) : FlatMap :=
  ops.foldl mirrorStep m0

/-- Well-formedness of a flat map as built at construction from
`FlatDict.flatten(reference_dict)`: pairwise-distinct paths and well-formed
stored values. -/
def flatMapWF : FlatMap → Bool
  | [] => true
  | (p, v) :: rest =>
    (flLookup rest p).isNone && PyVal.wf v && flatMapWF rest

/-- Scenario E path: a four-element bool sequence leaf in the template. -/
def soaPath : PathKey := ["hispeed", "command", "soa_enable"]

/-- Scenario E canonical flat map: the template value at `soaPath` is a
four-element bool list. -/
def soaTemplate : FlatMap :=
  [(soaPath, .pyList [.pyBool false, .pyBool false, .pyBool false, .pyBool false])]

/-! ## Helper lemmas: RX framing -/

/-- The fuel of `processRxGo` is irrelevant as soon as it covers the buffer
length. -/
theorem processRxGo_congr :
    ∀ (f1 f2 : Nat) (buf : List Nat), buf.length ≤ f1 → buf.length ≤ f2 →
      processRxGo f1 buf = processRxGo f2 buf := by
  intro f1
  induction f1 with
  | zero =>
    intro f2 buf h1 _
    have hb : buf = [] := List.length_eq_zero.mp (Nat.le_zero.mp h1)
    subst hb
    cases f2 with
    | zero => rfl
    | succ f2 => rfl
  | succ f1 ih =>
    intro f2 buf h1 h2
    cases f2 with
    | zero =>
      have hb : buf = [] := List.length_eq_zero.mp (Nat.le_zero.mp h2)
      subst hb
      rfl
    | succ f2 =>
      simp only [processRxGo]
      cases hf : buf.findIdx? (fun b => b == (START_CODE &&& 0xFF)) with
      | none => rfl
      | some i =>
        simp only []
        split
        · rfl
        · split
          · rfl
          · rename_i hcond3 hcondl
            have hle1 : (List.drop (3 + ((List.drop i buf).getD 1 0 <<< 8 ||| (List.drop i buf).getD 2 0)) (List.drop i buf)).length ≤ f1 := by
              simp only [List.length_drop] at *
              omega
            have hle2 : (List.drop (3 + ((List.drop i buf).getD 1 0 <<< 8 ||| (List.drop i buf).getD 2 0)) (List.drop i buf)).length ≤ f2 := by
              simp only [List.length_drop] at *
              omega
            rw [ih f2 _ hle1 hle2]

/-- Recombining the two header bytes of `frameBytes` recovers the length. -/
theorem encDec (n : Nat) (h : n < 2 ^ 16) :
    ((((n >>> 8) &&& 0xFF) <<< 8) ||| (n &&& 0xFF)) = n := by
  have h255 : (0xFF : Nat) = 2 ^ 8 - 1 := by norm_num
  apply Nat.eq_of_testBit_eq
  intro k
  simp only [h255, Nat.testBit_lor, Nat.testBit_and, Nat.testBit_shiftLeft,
    Nat.testBit_shiftRight, Nat.testBit_two_pow_sub_one]
  rcases Nat.lt_or_ge k 8 with hk | hk
  · simp [Nat.not_le.mpr hk, hk]
  · rcases Nat.lt_or_ge k 16 with hk16 | hk16
    · have hb : n.testBit k = n.testBit (8 + (k - 8)) := by congr 1; omega
      simp [hk, Nat.sub_lt_iff_lt_add hk, hk16, ← hb]
    · have hn : n.testBit k = false :=
        Nat.testBit_eq_false_of_lt (lt_of_lt_of_le h (Nat.pow_le_pow_right (by norm_num) hk16))
      simp [hk, hn]

/-- A start-code-free noise run followed by a complete frame: the machine
discards the noise, emits the payload, and continues on the remainder. -/
theorem processRx_noise_frame (noise p rest : List Nat)
    (hn : ∀ b ∈ noise, b ≠ START_CODE) (hp : p.length ≤ 0xFFFF) :
    processRx (noise ++ (frameBytes p ++ rest)) =
      ((p :: (processRx rest).1), (processRx rest).2) := by
  have hlen : (noise ++ (frameBytes p ++ rest)).length
      = noise.length + (3 + p.length + rest.length) := by
    simp [frameBytes]
    omega
  have hfindN : noise.findIdx? (fun b => b == (START_CODE &&& 0xFF)) = none := by
    rw [List.findIdx?_eq_none_iff]
    intro x hx
    have := hn x hx
    simpa [START_CODE] using this
  have hfindF : (frameBytes p ++ rest).findIdx? (fun b => b == (START_CODE &&& 0xFF)) = some 0 := by
    simp [frameBytes, List.findIdx?_cons, START_CODE]
  have hfind : (noise ++ (frameBytes p ++ rest)).findIdx? (fun b => b == (START_CODE &&& 0xFF))
      = some noise.length := by
    rw [List.findIdx?_append, hfindN, hfindF]
    simp
  unfold processRx
  rw [hlen]
  have hsucc : noise.length + (3 + p.length + rest.length)
      = (noise.length + 2 + p.length + rest.length) + 1 := by omega
  rw [hsucc]
  simp only [processRxGo, hfind]
  rw [List.drop_left]
  have hbytes : frameBytes p ++ rest =
      (START_CODE &&& 0xFF) :: (((p.length >>> 8) &&& 0xFF) :: ((p.length &&& 0xFF) :: (p ++ rest))) := by
    simp [frameBytes]
  rw [hbytes]
  have hg1 : ((START_CODE &&& 0xFF) :: (((p.length >>> 8) &&& 0xFF) :: ((p.length &&& 0xFF) :: (p ++ rest)))).getD 1 0
      = (p.length >>> 8) &&& 0xFF := rfl
  have hg2 : ((START_CODE &&& 0xFF) :: (((p.length >>> 8) &&& 0xFF) :: ((p.length &&& 0xFF) :: (p ++ rest)))).getD 2 0
      = p.length &&& 0xFF := rfl
  rw [hg1, hg2, encDec p.length (by omega)]
  have hL : ((START_CODE &&& 0xFF) :: (((p.length >>> 8) &&& 0xFF) :: ((p.length &&& 0xFF) :: (p ++ rest)))).length
      = 3 + p.length + rest.length := by simp; omega
  rw [hL]
  rw [if_neg (by omega), if_neg (by omega)]
  have hdrop3 : List.drop 3 ((START_CODE &&& 0xFF) :: (((p.length >>> 8) &&& 0xFF) :: ((p.length &&& 0xFF) :: (p ++ rest)))) = p ++ rest := rfl
  have hdropAll : List.drop (3 + p.length) ((START_CODE &&& 0xFF) :: (((p.length >>> 8) &&& 0xFF) :: ((p.length &&& 0xFF) :: (p ++ rest)))) = rest := by
    rw [← List.drop_drop, hdrop3, List.drop_left]
  rw [hdrop3, hdropAll, List.take_left]
  rw [processRxGo_congr (noise.length + 2 + p.length + rest.length) rest.length rest (by omega) (by omega)]

/-- Feeding the concatenation of valid frames emits the payload sequence. -/
theorem processRx_concat (ps : List (List Nat)) (hps : ∀ p ∈ ps, p.length ≤ 0xFFFF) :
    processRx (framesConcat ps) = (ps, []) := by
  induction ps with
  | nil => rfl
  | cons p ps ih =>
    have h1 : framesConcat (p :: ps) = [] ++ (frameBytes p ++ framesConcat ps) := by
      simp [framesConcat]
    rw [h1, processRx_noise_frame [] p (framesConcat ps) (by simp) (hps p (by simp))]
    rw [ih (fun q hq => hps q (by simp [hq]))]

/-! ## Claim theorems: framing and TX queue -/

/-- C1.  Framing round-trip: for every payload of length at most 65535, the
bytes produced by `write_frame` (start code `0xEE`, two big-endian length
bytes, the payload) fed into an empty RX buffer emit exactly that payload and
leave the buffer empty; and the concatenation of any such frames emits
exactly the payload sequence in order with an empty buffer. -/
theorem framing_roundtrip :
    (∀ p : List Nat, p.length ≤ 65535 → processRx (frameBytes p) = ([p], [])) ∧
    (∀ ps : List (List Nat), (∀ p ∈ ps, p.length ≤ 65535) →
      processRx (framesConcat ps) = (ps, [])) := by
  constructor
  · intro p hp
    have h := processRx_noise_frame [] p [] (by simp) hp
    simpa using h
  · intro ps hps
    exact processRx_concat ps hps

/-- Witness for C1: scenario A of the spec, plus a two-frame concatenation. -/
theorem framing_roundtrip_witness :
    frameBytes [0x11, 0x22, 0x33] = [0xEE, 0x00, 0x03, 0x11, 0x22, 0x33] ∧
    processRx [0xEE, 0x00, 0x03, 0x11, 0x22, 0x33] = ([[0x11, 0x22, 0x33]], []) ∧
    processRx (framesConcat [[0x11], [0x22, 0x33]]) = ([[0x11], [0x22, 0x33]], []) := by
  refine ⟨by decide, ?_, framing_roundtrip.2 [[0x11], [0x22, 0x33]] (by decide)⟩
  have h := framing_roundtrip.1 [0x11, 0x22, 0x33] (by decide)
  have hb : frameBytes [0x11, 0x22, 0x33] = [0xEE, 0x00, 0x03, 0x11, 0x22, 0x33] := by decide
  rw [hb] at h
  exact h

/-- C7.  Framing self-heal: any prefix of bytes none of which can begin a
header (no byte equals the start code) followed by a valid frame still
produces that frame, the prefix being consumed by the scan-and-drop step; and
scenario B concretely: `[AA BB EE 00 02 77 88 EE]` emits one frame `[77 88]`
with `[EE]` retained awaiting length bytes. -/
theorem framing_self_heal :
    (∀ noise p : List Nat, (∀ b ∈ noise, b ≠ START_CODE) → p.length ≤ 65535 →
      processRx (noise ++ frameBytes p) = ([p], [])) ∧
    processRx [0xAA, 0xBB, 0xEE, 0x00, 0x02, 0x77, 0x88, 0xEE]
      = ([[0x77, 0x88]], [0xEE]) := by
  constructor
  · intro noise p hn hp
    have h := processRx_noise_frame noise p [] hn hp
    simpa using h
  · decide

/-- Witness for C7: the general part applied to the noise and frame of
scenario B. -/
theorem framing_self_heal_witness :
    processRx ([0xAA, 0xBB] ++ frameBytes [0x77, 0x88]) = ([[0x77, 0x88]], []) :=
  framing_self_heal.1 [0xAA, 0xBB] [0x77, 0x88] (by decide) (by decide)

/-- C8.  TX queue bound: after any sequence of `write_frame` calls, the TX
queue never holds more than 8 frames; a call on a full queue neither blocks
nor enqueues — with a legal payload it drops the new frame with a warning,
and in every case the queue contents are unchanged. -/
theorem tx_queue_bound :
    (∀ (q : List (List Nat)) (ps : List (List Nat)), q.length ≤ 8 →
      (writeFrames q ps).length ≤ 8) ∧
    (∀ (q : List (List Nat)) (p : List Nat), q.length = 8 →
      (write_frame q p).1 = q ∧
      (p.length ≤ 65535 → write_frame q p = (q, .dropped_full))) := by
  constructor
  · intro q ps
    induction ps generalizing q with
    | nil => intro h; simpa [writeFrames] using h
    | cons p ps ih =>
      intro h
      have hstep : (write_frame q p).1.length ≤ 8 := by
        unfold write_frame
        split
        · simpa using h
        · split
          · simpa using h
          · rename_i hsz
            simp at hsz ⊢
            omega
      have : writeFrames q (p :: ps) = writeFrames (write_frame q p).1 ps := by
        simp [writeFrames]
      rw [this]
      exact ih _ hstep
  · intro q p hq
    constructor
    · unfold write_frame
      split
      · rfl
      · rw [if_pos (by omega)]
    · intro hp
      unfold write_frame
      rw [if_neg (by omega), if_pos (by omega)]

/-- Witness for C8: eight enqueues fill the queue from empty; the ninth call
is dropped and leaves the queue unchanged. -/
theorem tx_queue_bound_witness :
    (writeFrames [] (List.replicate 9 [0x01])).length ≤ 8 ∧
    write_frame (List.replicate 8 [0x01]) [0x02]
      = (List.replicate 8 [0x01], .dropped_full) :=
  ⟨tx_queue_bound.1 [] (List.replicate 9 [0x01]) (by decide),
   ((tx_queue_bound.2 (List.replicate 8 [0x01]) [0x02] (by decide)).2 (by decide))⟩

/-! ## Claim theorems: serdes receive routing and port status -/

/-- C2.  Ack exclusivity in the receive worker: a `debug_message` payload
publishes its debug topic and leaves both acknowledgement signals exactly as
they were (so it never sets the state ack or the file ack); a `node_state`
payload sets the state ack and only that, preserving the file ack (so a
`node_state` reply alone never releases the file-request worker wait); a
`neural_mem_request` (file-access) payload sets the file ack and only that,
preserving the state ack. -/
theorem ack_exclusivity :
    (∀ (root : String) (sig : RxSignals) (d : DebugMsg),
      receiveStep root sig (.debug_message d)
        = (sig, [.pubDebug (root ++ ".debug." ++ d.level) d.msg])) ∧
    (∀ (root : String) (sig : RxSignals) (s : NodeStateMsg),
      (receiveStep root sig (.node_state s)).1
        = ⟨true, sig.rx_file_response⟩) ∧
    (∀ (root : String) (sig : RxSignals) (f : NeuralMemFileAccess),
      (receiveStep root sig (.neural_mem_request f)).1
        = ⟨sig.rx_frame_received, true⟩) :=
  ⟨fun _ _ _ => rfl, fun _ _ _ => rfl, fun _ _ _ => rfl⟩

/-- Witness for C2: scenario D concretely — with both waits pending, a debug
frame leaves both signals clear, and the next `node_state` frame sets exactly
the state ack. -/
theorem ack_exclusivity_witness :
    (receiveStep "app.devices.node_00" ⟨false, false⟩
      (.debug_message ⟨"INFO", "hello"⟩)).1 = ⟨false, false⟩ ∧
    (receiveStep "app.devices.node_00" ⟨false, false⟩
      (.node_state ⟨0⟩)).1 = ⟨true, false⟩ := by
  have h1 := ack_exclusivity.1 "app.devices.node_00" ⟨false, false⟩ ⟨"INFO", "hello"⟩
  have h2 := ack_exclusivity.2.1 "app.devices.node_00" ⟨false, false⟩ ⟨0⟩
  exact ⟨by rw [h1], h2⟩

/-- C5 (code bug).  The claim demands change suppression on
`port.status.connected`, and the source documents it (module docstring,
class docstring and the comment inside `_pub_port_state` all promise a
change-only topic cache), but `_pub_port_state` calls `pub.sendMessage`
unconditionally: two consecutive trigger-thread cycles with an unchanged
`connected` value publish the same boolean twice on the topic. -/
theorem port_status_republishes_unchanged :
    countTopic
      (triggerCyclePubs "app.devices.node_00" false none none 0 16
        ++ triggerCyclePubs "app.devices.node_00" false none none 0 16)
      "app.devices.node_00.port.status.connected" = 2 ∧
    (triggerCyclePubs "app.devices.node_00" false none none 0 16
        ++ triggerCyclePubs "app.devices.node_00" false none none 0 16).filter
      (fun e => e.1 == "app.devices.node_00.port.status.connected")
      = [("app.devices.node_00.port.status.connected", .pvBool false),
         ("app.devices.node_00.port.status.connected", .pvBool false)] := by
  constructor
  · rfl
  · rfl

/-! ## Claim theorems: chunked file read -/

/-- C3.  Chunked-read correlation, as `_transfer_file` implements it:
an attempt response is accepted exactly when it arrived, carries non-empty
data, and matches the requested filename and offset with the read flag set;
each attempt for a chunk issues a read request with the requested filename
and offset and requested length `min(remaining, MAX_CHUNK_SIZE)`; a rejected
or timed-out attempt retries the same chunk (same filename, offset and chunk
size); an accepted response extends the local buffer with the response data
and advances the offset by its length; and when all `max_retries` attempts of
a chunk fail, the transfer aborts with `none`. -/
theorem chunked_read_correlation :
    (∀ (fn : String) (off : Nat) (r : Option NeuralMemFileAccess),
      acceptResponse fn off r = true ↔
        ∃ resp, r = some resp ∧ resp.filename = fn ∧ resp.offset = off ∧
          resp.read_nwrite = true ∧ resp.data ≠ []) ∧
    (∀ (fn : String) (filesize off : Nat),
      buildReadRequest fn off (min (filesize - off) MAX_CHUNK_SIZE)
        = ⟨fn, off, true, List.replicate (min (filesize - off) MAX_CHUNK_SIZE) 0⟩ ∧
      (buildReadRequest fn off (min (filesize - off) MAX_CHUNK_SIZE)).data.length
        = min (filesize - off) MAX_CHUNK_SIZE) ∧
    (∀ (fn : String) (off cs n : Nat) (r : Option NeuralMemFileAccess)
        (rs : List (Option NeuralMemFileAccess)),
      acceptResponse fn off r = false →
        tryReadChunk fn off cs (n + 1) (r :: rs) = tryReadChunk fn off cs n rs) ∧
    (∀ (fn : String) (filesize fuel off : Nat) (acc : List Nat)
        (resps rest : List (Option NeuralMemFileAccess)) (resp : NeuralMemFileAccess),
      off < filesize →
      tryReadChunk fn off (min (filesize - off) MAX_CHUNK_SIZE) max_retries resps
        = (some resp, rest) →
      transferFileGo fn filesize (fuel + 1) off acc resps
        = transferFileGo fn filesize fuel (off + resp.data.length)
            (acc ++ resp.data) rest) ∧
    (∀ (fn : String) (filesize fuel off : Nat) (acc : List Nat)
        (resps rest : List (Option NeuralMemFileAccess)),
      off < filesize →
      tryReadChunk fn off (min (filesize - off) MAX_CHUNK_SIZE) max_retries resps
        = (none, rest) →
      transferFileGo fn filesize (fuel + 1) off acc resps = none) := by
  refine ⟨?_, ?_, ?_, ?_, ?_⟩
  · intro fn off r
    cases r with
    | none =>
      simp [acceptResponse]
    | some resp =>
      simp only [acceptResponse, Bool.and_eq_true, beq_iff_eq, decide_eq_true_eq,
        Option.some.injEq]
      constructor
      · rintro ⟨⟨⟨hlen, hfn⟩, hoff⟩, hread⟩
        exact ⟨resp, rfl, hfn, hoff, hread, by
          intro hnil
          rw [hnil] at hlen
          simp at hlen⟩
      · rintro ⟨resp2, h2, hfn, hoff, hread, hne⟩
        cases h2
        exact ⟨⟨⟨List.length_pos.mpr hne, hfn⟩, hoff⟩, hread⟩
  · intro fn filesize off
    exact ⟨rfl, by simp [buildReadRequest]⟩
  · intro fn off cs n r rs hrej
    simp only [tryReadChunk, buildReadRequest]
    rw [if_neg]
    simpa [acceptResponse] using hrej
  · intro fn filesize fuel off acc resps rest resp hlt htc
    simp only [transferFileGo, if_pos hlt]
    rw [htc]
  · intro fn filesize fuel off acc resps rest hlt htc
    simp only [transferFileGo, if_pos hlt]
    rw [htc]

/-- Witness for C3: scenario C concretely — the mismatching first response
(offset 64 instead of 0) forces a retry, the matching second response is
accepted, an all-reject oracle aborts. -/
theorem chunked_read_correlation_witness :
    acceptResponse "x" 0 (some ⟨"x", 0, true, List.replicate 64 7⟩) = true ∧
    tryReadChunk "x" 0 64 3 (some ⟨"x", 64, true, List.replicate 64 7⟩
        :: [some ⟨"x", 0, true, List.replicate 64 7⟩])
      = tryReadChunk "x" 0 64 2 [some ⟨"x", 0, true, List.replicate 64 7⟩] ∧
    transferFileGo "x" 64 3 0 []
        [some ⟨"x", 0, true, List.replicate 64 7⟩]
      = transferFileGo "x" 64 2 64 (List.replicate 64 7) [] ∧
    transferFileGo "x" 64 3 0 [] [none, none, none] = none := by
  refine ⟨?_, ?_, ?_, ?_⟩
  · exact (chunked_read_correlation.1 "x" 0 (some ⟨"x", 0, true, List.replicate 64 7⟩)).mpr
      ⟨⟨"x", 0, true, List.replicate 64 7⟩, rfl, rfl, rfl, rfl, by decide⟩
  · exact chunked_read_correlation.2.2.1 "x" 0 64 2
      (some ⟨"x", 64, true, List.replicate 64 7⟩)
      [some ⟨"x", 0, true, List.replicate 64 7⟩] (by decide)
  · have h := chunked_read_correlation.2.2.2.1 "x" 64 2 0 []
      [some ⟨"x", 0, true, List.replicate 64 7⟩] [] ⟨"x", 0, true, List.replicate 64 7⟩
      (by decide) (by decide)
    simpa using h
  · exact chunked_read_correlation.2.2.2.2 "x" 64 2 0 [] [none, none, none]
      [] (by decide) (by decide)

/-! ## Helper lemmas: key sets and lookups -/

theorem keyMem_of_mem {k : String} {v : PyVal} {l : List (String × PyVal)}
    (h : (k, v) ∈ l) : keyMem k l = true := by
  induction l with
  | nil => cases h
  | cons kv rest ih =>
    cases h with
    | head => simp [keyMem]
    | tail _ h2 => simp [keyMem, ih h2]

theorem keyMem_exists {k : String} {l : List (String × PyVal)} :
    keyMem k l = true ↔ ∃ v, (k, v) ∈ l := by
  induction l with
  | nil => simp [keyMem]
  | cons kv rest ih =>
    obtain ⟨k0, v0⟩ := kv
    simp only [keyMem, Bool.or_eq_true, decide_eq_true_eq, ih]
    constructor
    · rintro (rfl | ⟨v, hv⟩)
      · exact ⟨v0, List.mem_cons_self _ _⟩
      · exact ⟨v, List.mem_cons_of_mem _ hv⟩
    · rintro ⟨v, hv⟩
      cases List.mem_cons.mp hv with
      | inl h0 =>
        left
        exact congrArg Prod.fst h0
      | inr h0 => exact Or.inr ⟨v, h0⟩

theorem keyMem_lookup {k : String} {l : List (String × PyVal)}
    (h : keyMem k l = true) : ∃ v, lookupEntry k l = some v := by
  induction l with
  | nil => simp [keyMem] at h
  | cons kv rest ih =>
    obtain ⟨k0, v0⟩ := kv
    simp only [keyMem, Bool.or_eq_true, decide_eq_true_eq] at h
    by_cases hk : k0 = k
    · exact ⟨v0, by simp [lookupEntry, hk]⟩
    · cases h with
      | inl h0 => exact absurd h0.symm hk
      | inr h0 =>
        obtain ⟨v, hv⟩ := ih h0
        exact ⟨v, by simp [lookupEntry, hk, hv]⟩

theorem lookupEntry_mem {k : String} {v : PyVal} {l : List (String × PyVal)}
    (h : lookupEntry k l = some v) : (k, v) ∈ l := by
  induction l with
  | nil => simp [lookupEntry] at h
  | cons kv rest ih =>
    obtain ⟨k0, v0⟩ := kv
    simp only [lookupEntry] at h
    by_cases hk : k0 = k
    · rw [if_pos hk] at h
      cases h
      subst hk
      exact List.mem_cons_self _ _
    · rw [if_neg hk] at h
      exact List.mem_cons_of_mem _ (ih h)

theorem keyMem_of_lookup {k : String} {v : PyVal} {l : List (String × PyVal)}
    (h : lookupEntry k l = some v) : keyMem k l = true :=
  keyMem_of_mem (lookupEntry_mem h)

theorem keySetEq_keyMem {a b : List (String × PyVal)}
    (h : keySetEq a b = true) (k : String) : keyMem k a = keyMem k b := by
  simp only [keySetEq, Bool.and_eq_true, List.all_eq_true] at h
  obtain ⟨hab, hba⟩ := h
  cases ha : keyMem k a with
  | true =>
    obtain ⟨v, hv⟩ := keyMem_exists.mp ha
    exact (hab (k, v) hv).symm
  | false =>
    cases hb : keyMem k b with
    | true =>
      obtain ⟨v, hv⟩ := keyMem_exists.mp hb
      rw [hba (k, v) hv] at ha
      cases ha
    | false => rfl

theorem keySetEq_intro {a b : List (String × PyVal)}
    (h : ∀ k, keyMem k a = keyMem k b) : keySetEq a b = true := by
  simp only [keySetEq, Bool.and_eq_true, List.all_eq_true]
  constructor
  · intro kv hkv
    obtain ⟨k, v⟩ := kv
    rw [← h k]
    exact keyMem_of_mem hkv
  · intro kv hkv
    obtain ⟨k, v⟩ := kv
    rw [h k]
    exact keyMem_of_mem hkv

theorem keySetEq_refl (a : List (String × PyVal)) : keySetEq a a = true :=
  keySetEq_intro (fun _ => rfl)

theorem keySetEq_trans {a b c : List (String × PyVal)}
    (h1 : keySetEq a b = true) (h2 : keySetEq b c = true) : keySetEq a c = true :=
  keySetEq_intro (fun k => (keySetEq_keyMem h1 k).trans (keySetEq_keyMem h2 k))

theorem lookupEntry_of_nodup_mem {es : List (String × PyVal)}
    (hnd : keysNodup es = true) {k : String} {v : PyVal} (hm : (k, v) ∈ es) :
    lookupEntry k es = some v := by
  induction es with
  | nil => cases hm
  | cons kv rest ih =>
    obtain ⟨k0, v0⟩ := kv
    simp only [keysNodup, Bool.and_eq_true, Bool.not_eq_true'] at hnd
    obtain ⟨hk0, hrest⟩ := hnd
    cases List.mem_cons.mp hm with
    | inl h0 =>
      cases h0
      simp [lookupEntry]
    | inr h0 =>
      have hne : k0 ≠ k := by
        intro hEq
        subst hEq
        rw [keyMem_of_mem h0] at hk0
        cases hk0
      simp [lookupEntry, hne, ih hrest h0]

theorem wfEntries_mem {es : List (String × PyVal)} (h : wfEntries es = true)
    {k : String} {v : PyVal} (hm : (k, v) ∈ es) : PyVal.wf v = true := by
  induction es with
  | nil => cases hm
  | cons kv rest ih =>
    obtain ⟨k0, v0⟩ := kv
    simp only [wfEntries, Bool.and_eq_true] at h
    cases List.mem_cons.mp hm with
    | inl h0 => cases h0; exact h.1
    | inr h0 => exact ih h.2 h0

theorem dictMatch_mem {ee ce : List (String × PyVal)} (h : dictMatch ee ce = true)
    {k : String} {ev : PyVal} (hm : (k, ev) ∈ ee) :
    ∃ cv, lookupEntry k ce = some cv ∧ match_type ev cv = true := by
  induction ee with
  | nil => cases hm
  | cons kv rest ih =>
    obtain ⟨k0, v0⟩ := kv
    simp only [dictMatch, Bool.and_eq_true] at h
    obtain ⟨hhead, htail⟩ := h
    cases List.mem_cons.mp hm with
    | inl h0 =>
      cases h0
      cases hl : lookupEntry k ce with
      | none => rw [hl] at hhead; cases hhead
      | some cv =>
        rw [hl] at hhead
        exact ⟨cv, rfl, hhead⟩
    | inr h0 => exact ih htail h0

/-! ## Helper lemmas: reflexivity and transitivity of match_type -/

mutual

theorem match_type_refl (v : PyVal) (h : PyVal.wf v = true) :
    match_type v v = true := by
  cases v with
  | pyDict es =>
    simp only [PyVal.wf, Bool.and_eq_true] at h
    have haux : dictMatch es es = true :=
      dictMatch_refl_aux es es (fun kv hkv => by
        obtain ⟨k, v⟩ := kv
        exact ⟨lookupEntry_of_nodup_mem h.1 hkv, wfEntries_mem h.2 hkv⟩)
    simp [match_type, PyVal.cls, isinstanceOf, keySetEq_refl, haux]
  | pyList xs =>
    simp only [PyVal.wf] at h
    simp only [match_type, PyVal.cls, isinstanceOf]
    simp [listMatch_refl_aux xs h]
  | pyTuple xs =>
    simp only [PyVal.wf] at h
    simp only [match_type, PyVal.cls, isinstanceOf]
    simp [listMatch_refl_aux xs h]
  | pyBool b => rfl
  | pyInt n => rfl
  | pyFloat bits => rfl
  | pyStr s => rfl
  | pyEnum c t => simp [match_type, PyVal.cls, isinstanceOf]
  | pyNone => rfl

theorem dictMatch_refl_aux (ve es : List (String × PyVal))
    (h : ∀ kv ∈ ve, lookupEntry kv.1 es = some kv.2 ∧ PyVal.wf kv.2 = true) :
    dictMatch ve es = true := by
  cases ve with
  | nil => rfl
  | cons kv rest =>
    obtain ⟨k, v⟩ := kv
    obtain ⟨hl, hwf⟩ := h (k, v) (List.mem_cons_self _ _)
    simp only [dictMatch, Bool.and_eq_true]
    exact ⟨by rw [hl]; exact match_type_refl v hwf,
      dictMatch_refl_aux rest es (fun kv2 hkv2 => h kv2 (List.mem_cons_of_mem _ hkv2))⟩

theorem listMatch_refl_aux (xs : List PyVal) (h : wfList xs = true) :
    listMatch xs xs = true := by
  cases xs with
  | nil => rfl
  | cons x rest =>
    simp only [wfList, Bool.and_eq_true] at h
    simp only [listMatch, Bool.and_eq_true]
    exact ⟨match_type_refl x h.1, listMatch_refl_aux rest h.2⟩

end

theorem isinstanceOf_trans {x y z : PyClass}
    (h1 : isinstanceOf x y = true) (h2 : isinstanceOf y z = true) :
    isinstanceOf x z = true := by
  simp only [isinstanceOf, Bool.or_eq_true, Bool.and_eq_true, decide_eq_true_eq] at *
  rcases h1 with rfl | ⟨rfl, rfl⟩
  · exact h2
  · rcases h2 with rfl | ⟨h3, _⟩
    · right; exact ⟨rfl, rfl⟩
    · cases h3

theorem match_type_isinst {x y : PyVal} (h : match_type x y = true) :
    isinstanceOf x.cls y.cls = true := by
  cases hin : isinstanceOf x.cls y.cls with
  | true => rfl
  | false =>
    unfold match_type at h
    rw [hin] at h
    simp at h

theorem match_type_prim (a c : PyVal) (ha : isContainer a = false)
    (h : isinstanceOf a.cls c.cls = true) : match_type a c = true := by
  cases a <;> cases c <;> simp_all [match_type, isContainer]

theorem match_type_dict_inv {ve : List (String × PyVal)} {b : PyVal}
    (h : match_type (.pyDict ve) b = true) :
    ∃ ee, b = .pyDict ee ∧ keySetEq ve ee = true ∧ dictMatch ve ee = true := by
  cases b with
  | pyDict ee =>
    simp only [match_type, PyVal.cls, isinstanceOf] at h
    simp at h
    exact ⟨ee, rfl, h.1, h.2⟩
  | pyBool b => simp [match_type, PyVal.cls, isinstanceOf] at h
  | pyInt n => simp [match_type, PyVal.cls, isinstanceOf] at h
  | pyFloat bits => simp [match_type, PyVal.cls, isinstanceOf] at h
  | pyStr s => simp [match_type, PyVal.cls, isinstanceOf] at h
  | pyEnum cl t => simp [match_type, PyVal.cls, isinstanceOf] at h
  | pyNone => simp [match_type, PyVal.cls, isinstanceOf] at h
  | pyList xs => simp [match_type, PyVal.cls, isinstanceOf] at h
  | pyTuple xs => simp [match_type, PyVal.cls, isinstanceOf] at h

theorem match_type_list_inv {vs : List PyVal} {b : PyVal}
    (h : match_type (.pyList vs) b = true) :
    ∃ es, b = .pyList es ∧ vs.length = es.length ∧ listMatch vs es = true := by
  cases b with
  | pyList es =>
    simp only [match_type, PyVal.cls, isinstanceOf] at h
    simp at h
    exact ⟨es, rfl, h.1, h.2⟩
  | pyBool b => simp [match_type, PyVal.cls, isinstanceOf] at h
  | pyInt n => simp [match_type, PyVal.cls, isinstanceOf] at h
  | pyFloat bits => simp [match_type, PyVal.cls, isinstanceOf] at h
  | pyStr s => simp [match_type, PyVal.cls, isinstanceOf] at h
  | pyEnum cl t => simp [match_type, PyVal.cls, isinstanceOf] at h
  | pyNone => simp [match_type, PyVal.cls, isinstanceOf] at h
  | pyDict es => simp [match_type, PyVal.cls, isinstanceOf] at h
  | pyTuple es => simp [match_type, PyVal.cls, isinstanceOf] at h

theorem match_type_tuple_inv {vs : List PyVal} {b : PyVal}
    (h : match_type (.pyTuple vs) b = true) :
    ∃ es, b = .pyTuple es ∧ vs.length = es.length ∧ listMatch vs es = true := by
  cases b with
  | pyTuple es =>
    simp only [match_type, PyVal.cls, isinstanceOf] at h
    simp at h
    exact ⟨es, rfl, h.1, h.2⟩
  | pyBool b => simp [match_type, PyVal.cls, isinstanceOf] at h
  | pyInt n => simp [match_type, PyVal.cls, isinstanceOf] at h
  | pyFloat bits => simp [match_type, PyVal.cls, isinstanceOf] at h
  | pyStr s => simp [match_type, PyVal.cls, isinstanceOf] at h
  | pyEnum cl t => simp [match_type, PyVal.cls, isinstanceOf] at h
  | pyNone => simp [match_type, PyVal.cls, isinstanceOf] at h
  | pyDict es => simp [match_type, PyVal.cls, isinstanceOf] at h
  | pyList es => simp [match_type, PyVal.cls, isinstanceOf] at h

mutual

theorem match_type_trans (a b c : PyVal)
    (h1 : match_type a b = true) (h2 : match_type b c = true) :
    match_type a c = true := by
  cases a with
  | pyDict ve =>
    obtain ⟨ee, rfl, hks1, hdm1⟩ := match_type_dict_inv h1
    obtain ⟨ce, rfl, hks2, hdm2⟩ := match_type_dict_inv h2
    have hks := keySetEq_trans hks1 hks2
    have hdm := dictMatch_trans ve ee ce hdm1 hdm2
    simp [match_type, PyVal.cls, isinstanceOf, hks, hdm]
  | pyList vs =>
    obtain ⟨es, rfl, hl1, hm1⟩ := match_type_list_inv h1
    obtain ⟨cs, rfl, hl2, hm2⟩ := match_type_list_inv h2
    have hm := listMatch_trans vs es cs hm1 hm2
    simp [match_type, PyVal.cls, isinstanceOf, hl1.trans hl2, hm]
  | pyTuple vs =>
    obtain ⟨es, rfl, hl1, hm1⟩ := match_type_tuple_inv h1
    obtain ⟨cs, rfl, hl2, hm2⟩ := match_type_tuple_inv h2
    have hm := listMatch_trans vs es cs hm1 hm2
    simp [match_type, PyVal.cls, isinstanceOf, hl1.trans hl2, hm]
  | pyBool bb =>
    exact match_type_prim _ _ rfl (isinstanceOf_trans (match_type_isinst h1) (match_type_isinst h2))
  | pyInt n =>
    exact match_type_prim _ _ rfl (isinstanceOf_trans (match_type_isinst h1) (match_type_isinst h2))
  | pyFloat bits =>
    exact match_type_prim _ _ rfl (isinstanceOf_trans (match_type_isinst h1) (match_type_isinst h2))
  | pyStr s =>
    exact match_type_prim _ _ rfl (isinstanceOf_trans (match_type_isinst h1) (match_type_isinst h2))
  | pyEnum cl t =>
    exact match_type_prim _ _ rfl (isinstanceOf_trans (match_type_isinst h1) (match_type_isinst h2))
  | pyNone =>
    exact match_type_prim _ _ rfl (isinstanceOf_trans (match_type_isinst h1) (match_type_isinst h2))
termination_by structural a

theorem dictMatch_trans (ve ee ce : List (String × PyVal))
    (h1 : dictMatch ve ee = true) (h2 : dictMatch ee ce = true) :
    dictMatch ve ce = true := by
  cases ve with
  | nil => rfl
  | cons kv rest =>
    obtain ⟨k, v⟩ := kv
    simp only [dictMatch, Bool.and_eq_true] at h1 ⊢
    obtain ⟨hhead, htail⟩ := h1
    cases hl : lookupEntry k ee with
    | none => rw [hl] at hhead; cases hhead
    | some ev =>
      rw [hl] at hhead
      obtain ⟨cv, hlc, hmt2⟩ := dictMatch_mem h2 (lookupEntry_mem hl)
      refine ⟨?_, dictMatch_trans rest ee ce htail h2⟩
      rw [hlc]
      exact match_type_trans v ev cv hhead hmt2
termination_by structural ve

theorem listMatch_trans (vs es cs : List PyVal)
    (h1 : listMatch vs es = true) (h2 : listMatch es cs = true) :
    listMatch vs cs = true := by
  cases vs with
  | nil =>
    cases es with
    | nil =>
      cases cs with
      | nil => rfl
      | cons c cs0 => simp [listMatch] at h2
    | cons e es0 => simp [listMatch] at h1
  | cons v vs0 =>
    cases es with
    | nil => simp [listMatch] at h1
    | cons e es0 =>
      cases cs with
      | nil => simp [listMatch] at h2
      | cons c cs0 =>
        simp only [listMatch, Bool.and_eq_true] at h1 h2 ⊢
        exact ⟨match_type_trans v e c h1.1 h2.1,
          listMatch_trans vs0 es0 cs0 h1.2 h2.2⟩
termination_by structural vs

end

/-! match_type equals the spec shape characterization -/

mutual

theorem match_type_eq (v e : PyVal) :
    match_type v e = shapeMatch isinstanceOf v e := by
  cases v with
  | pyDict ve =>
    cases e with
    | pyDict ee =>
      simp only [match_type, shapeMatch, PyVal.cls, isinstanceOf]
      simp [dictMatch_eq ve ee]
    | pyBool b => rfl
    | pyInt n => rfl
    | pyFloat bits => rfl
    | pyStr s => rfl
    | pyEnum c t => rfl
    | pyNone => rfl
    | pyList xs => rfl
    | pyTuple xs => rfl
  | pyList vs =>
    cases e with
    | pyList es =>
      simp only [match_type, shapeMatch, PyVal.cls, isinstanceOf]
      simp [listMatch_eq vs es]
    | pyBool b => rfl
    | pyInt n => rfl
    | pyFloat bits => rfl
    | pyStr s => rfl
    | pyEnum c t => rfl
    | pyNone => rfl
    | pyDict ee => rfl
    | pyTuple xs => rfl
  | pyTuple vs =>
    cases e with
    | pyTuple es =>
      simp only [match_type, shapeMatch, PyVal.cls, isinstanceOf]
      simp [listMatch_eq vs es]
    | pyBool b => rfl
    | pyInt n => rfl
    | pyFloat bits => rfl
    | pyStr s => rfl
    | pyEnum c t => rfl
    | pyNone => rfl
    | pyDict ee => rfl
    | pyList xs => rfl
  | pyBool b =>
    cases e <;> rfl
  | pyInt n =>
    cases e <;> rfl
  | pyFloat bits =>
    cases e <;> rfl
  | pyStr s =>
    cases e <;> rfl
  | pyEnum c t =>
    cases e <;> simp [match_type, shapeMatch, PyVal.cls, isinstanceOf, isContainer]
  | pyNone =>
    cases e <;> rfl

theorem dictMatch_eq (ve ee : List (String × PyVal)) :
    dictMatch ve ee = shapeMatchDict isinstanceOf ve ee := by
  cases ve with
  | nil => rfl
  | cons kv rest =>
    obtain ⟨k, v⟩ := kv
    simp only [dictMatch, shapeMatchDict]
    cases h : lookupEntry k ee with
    | none => rfl
    | some ev => simp [match_type_eq v ev, dictMatch_eq rest ee]

theorem listMatch_eq (vs es : List PyVal) :
    listMatch vs es = shapeMatchList isinstanceOf vs es := by
  cases vs with
  | nil => cases es <;> rfl
  | cons v vs0 =>
    cases es with
    | nil => rfl
    | cons e es0 =>
      simp only [listMatch, shapeMatchList]
      rw [match_type_eq v e, listMatch_eq vs0 es0]

end


/-! ## Helper lemmas: the canonical flat map -/

theorem flLookup_flAssign_self {m : FlatMap} {p : PathKey} {v : PyVal}
    (h : flLookup m p ≠ none) : flLookup (flAssign m p v) p = some v := by
  induction m with
  | nil => simp [flLookup] at h
  | cons pv rest ih =>
    obtain ⟨p0, v0⟩ := pv
    by_cases hp : p0 = p
    · simp [flAssign, flLookup, hp]
    · simp only [flLookup, if_neg hp] at h
      simp [flAssign, flLookup, hp, ih h]

theorem flLookup_flAssign_ne {m : FlatMap} {p q : PathKey} {v : PyVal}
    (h : q ≠ p) : flLookup (flAssign m p v) q = flLookup m q := by
  induction m with
  | nil =>
    simp only [flAssign, flLookup]
    rw [if_neg (fun he => h he.symm)]
  | cons pv rest ih =>
    obtain ⟨p0, v0⟩ := pv
    by_cases hp : p0 = p
    · subst hp
      have hne : ¬(p0 = q) := fun he => h he.symm
      simp [flAssign, flLookup, hne]
    · simp [flAssign, flLookup, hp, ih]

theorem flAssign_keys {m : FlatMap} {p : PathKey} {v : PyVal}
    (h : flLookup m p ≠ none) : (flAssign m p v).map Prod.fst = m.map Prod.fst := by
  induction m with
  | nil => simp [flLookup] at h
  | cons pv rest ih =>
    obtain ⟨p0, v0⟩ := pv
    by_cases hp : p0 = p
    · simp [flAssign, hp]
    · simp only [flLookup, if_neg hp] at h
      simp [flAssign, hp, ih h]

theorem flatMapWF_lookup_wf {m : FlatMap} (h : flatMapWF m = true) {p : PathKey}
    {v : PyVal} (hl : flLookup m p = some v) : PyVal.wf v = true := by
  induction m with
  | nil => simp [flLookup] at hl
  | cons pv rest ih =>
    obtain ⟨p0, v0⟩ := pv
    simp only [flatMapWF, Bool.and_eq_true] at h
    simp only [flLookup] at hl
    by_cases hp : p0 = p
    · rw [if_pos hp] at hl
      cases hl
      exact h.1.2
    · rw [if_neg hp] at hl
      exact ih h.2 hl

/-! ## Claim theorems: structural type matching -/

/-- C4 counterexample.  The claim as stated demands identical concrete
primitive types at leaves, but `isinstance(True, int)` holds in Python, so
`match_type(True, 1)` returns true although `bool` and `int` are different
concrete types: the claimed equivalence fails at this input. -/
theorem match_type_strict_leaf_counterexample :
    match_type (.pyBool true) (.pyInt 1) = true ∧
    specStrictMatch (.pyBool true) (.pyInt 1) = false :=
  ⟨rfl, rfl⟩

/-- C4 (amended).  `match_type(v, tmpl)` returns true iff `v` has the same
tree shape as `tmpl`, with equal lengths and pairwise matching elements at
sequence nodes and identical key sets with pairwise matching values at map
nodes, and with leaves compared by Python `isinstance` semantics: identical
concrete classes, except that a `bool` value is accepted where the template
leaf is an `int` (`bool` being a subclass of `int`). -/
theorem match_type_characterization :
    ∀ v tmpl : PyVal, match_type v tmpl = specIsinstMatch v tmpl :=
  fun v tmpl => match_type_eq v tmpl

/-- Witness for C4: the characterization applied to a sequence with a bool
leaf against an int template. -/
theorem match_type_characterization_witness :
    match_type (.pyList [.pyBool true, .pyInt 2]) (.pyList [.pyInt 0, .pyInt 0])
      = specIsinstMatch (.pyList [.pyBool true, .pyInt 2]) (.pyList [.pyInt 0, .pyInt 0]) :=
  match_type_characterization (.pyList [.pyBool true, .pyInt 2]) (.pyList [.pyInt 0, .pyInt 0])

/-! ## Claim theorems: mirror mutations -/

/-- C9.  Mirror mutation atomicity on type mismatch: at any state whose
value at the path type-matches the construction template (the invariant of
C10), a proposal whose path is absent from the template, or whose value fails
`match_type` against the template value at the path, reports no update,
emits a warning, and leaves the canonical flat map completely unchanged (the
embedding is total, so no exception reaches the caller); concretely, pushing
a three-element bool list onto the four-element bool template of scenario E
is rejected with no state change. -/
theorem mirror_reject_atomicity :
    (∀ (m tmpl : FlatMap) (path : PathKey) (v : PyVal),
      (flLookup m path).isSome = (flLookup tmpl path).isSome →
      (∀ cur t, flLookup m path = some cur → flLookup tmpl path = some t →
        match_type cur t = true) →
      (flLookup tmpl path = none ∨
        ∃ t, flLookup tmpl path = some t ∧ match_type v t = false) →
      updateFlattenedDict m path v = (⟨false, true⟩, m)) ∧
    updateFlattenedDict soaTemplate soaPath
        (.pyList [.pyBool true, .pyBool true, .pyBool true])
      = (⟨false, true⟩, soaTemplate) := by
  constructor
  · intro m tmpl path v hsome hmatch hrej
    cases hm : flLookup m path with
    | none => simp [updateFlattenedDict, hm]
    | some cur =>
      rw [hm] at hsome
      cases ht : flLookup tmpl path with
      | none =>
        rw [ht] at hsome
        simp at hsome
      | some t =>
        cases hrej with
        | inl h0 => rw [ht] at h0; cases h0
        | inr h0 =>
          obtain ⟨t2, ht2, hmt⟩ := h0
          rw [ht] at ht2
          injection ht2 with hteq
          subst hteq
          have hct := hmatch cur t hm ht
          have hvc : match_type v cur = false := by
            cases hvc : match_type v cur with
            | false => rfl
            | true =>
              have := match_type_trans v cur t hvc hct
              rw [this] at hmt
              cases hmt
          simp [updateFlattenedDict, hm, hvc]
  · rfl

/-- Witness for C9: the general rejection rule applied at the scenario E
state, template and proposal. -/
theorem mirror_reject_atomicity_witness :
    updateFlattenedDict soaTemplate soaPath (.pyBool true)
      = (⟨false, true⟩, soaTemplate) :=
  mirror_reject_atomicity.1 soaTemplate soaTemplate soaPath (.pyBool true)
    rfl
    (fun cur t hc ht => by
      have hV : flLookup soaTemplate soaPath
          = some (.pyList [.pyBool false, .pyBool false, .pyBool false, .pyBool false]) := rfl
      rw [hV] at hc ht
      injection hc with hc2
      injection ht with ht2
      subst hc2
      subst ht2
      rfl)
    (Or.inr ⟨.pyList [.pyBool false, .pyBool false, .pyBool false, .pyBool false],
      rfl, rfl⟩)

/-- C10.  Mirror shape invariant: starting from any well-formed canonical
flat map (as built by flattening the reference dict at construction), any
sequence of mirror operations — proposals from `push`, `push_path` or the
subscribed handlers, and reads from `pull` / `pull_path` — preserves the key
set of the flat map exactly, and the value stored at each path always
type-matches (via `match_type`) the value stored there at construction. -/
theorem mirror_shape_invariant :
    ∀ (m0 : FlatMap) (ops : List MirrorOp), flatMapWF m0 = true →
      (mirrorRun m0 ops).map Prod.fst = m0.map Prod.fst ∧
      (∀ p v0, flLookup m0 p = some v0 →
        ∃ v, flLookup (mirrorRun m0 ops) p = some v ∧ match_type v v0 = true) := by
  intro m0 ops hwf
  suffices h : ∀ m : FlatMap,
      (m.map Prod.fst = m0.map Prod.fst ∧
        ∀ p v0, flLookup m0 p = some v0 →
          ∃ v, flLookup m p = some v ∧ match_type v v0 = true) →
      ((mirrorRun m ops).map Prod.fst = m0.map Prod.fst ∧
        ∀ p v0, flLookup m0 p = some v0 →
          ∃ v, flLookup (mirrorRun m ops) p = some v ∧ match_type v v0 = true) by
    exact h m0 ⟨rfl, fun p v0 hl =>
      ⟨v0, hl, match_type_refl v0 (flatMapWF_lookup_wf hwf hl)⟩⟩
  induction ops with
  | nil =>
    intro m hI
    simpa [mirrorRun] using hI
  | cons op rest ih =>
    intro m hI
    have hrun : mirrorRun m (op :: rest) = mirrorRun (mirrorStep m op) rest := by
      simp [mirrorRun]
    rw [hrun]
    apply ih
    cases op with
    | read => simpa [mirrorStep] using hI
    | propose path v =>
      cases hm : flLookup m path with
      | none => simpa [mirrorStep, updateFlattenedDict, hm] using hI
      | some cur =>
        cases hmt : match_type v cur with
        | false => simpa [mirrorStep, updateFlattenedDict, hm, hmt] using hI
        | true =>
          have hstep : mirrorStep m (.propose path v) = flAssign m path v := by
            simp [mirrorStep, updateFlattenedDict, hm, hmt]
          rw [hstep]
          constructor
          · rw [flAssign_keys (by simp [hm])]
            exact hI.1
          · intro p v0 hl0
            by_cases hp : p = path
            · subst hp
              obtain ⟨cur2, hcur2, hm2⟩ := hI.2 p v0 hl0
              rw [hm] at hcur2
              injection hcur2 with hceq
              subst hceq
              exact ⟨v, flLookup_flAssign_self (by simp [hm]),
                match_type_trans v cur v0 hmt hm2⟩
            · obtain ⟨w, hw, hmw⟩ := hI.2 p v0 hl0
              exact ⟨w, by rw [flLookup_flAssign_ne hp]; exact hw, hmw⟩

/-- Witness for C10: the invariant applied to the scenario E flat map under
an accepted proposal, a rejected proposal and a read. -/
theorem mirror_shape_invariant_witness :
    (mirrorRun soaTemplate
        [.propose soaPath (.pyList [.pyBool true, .pyBool true, .pyBool true, .pyBool true]),
         .propose soaPath (.pyBool true), .read]).map Prod.fst
      = soaTemplate.map Prod.fst ∧
    (∀ p v0, flLookup soaTemplate p = some v0 →
      ∃ v, flLookup (mirrorRun soaTemplate
        [.propose soaPath (.pyList [.pyBool true, .pyBool true, .pyBool true, .pyBool true]),
         .propose soaPath (.pyBool true), .read]) p = some v ∧ match_type v v0 = true) :=
  mirror_shape_invariant soaTemplate
    [.propose soaPath (.pyList [.pyBool true, .pyBool true, .pyBool true, .pyBool true]),
     .propose soaPath (.pyBool true), .read] rfl

/-! ## Helper lemmas: flatten / unflatten -/

theorem keyMem_append (k : String) (a b : List (String × PyVal)) :
    keyMem k (a ++ b) = (keyMem k a || keyMem k b) := by
  induction a with
  | nil => simp [keyMem]
  | cons kv rest ih =>
    obtain ⟨k0, v0⟩ := kv
    simp [keyMem, ih, Bool.or_assoc]

theorem lookup_none_of_not_keyMem {k : String} {d : List (String × PyVal)}
    (h : keyMem k d = false) : lookupEntry k d = none := by
  induction d with
  | nil => rfl
  | cons kv rest ih =>
    obtain ⟨k0, v0⟩ := kv
    simp only [keyMem, Bool.or_eq_false_iff, decide_eq_false_iff_not] at h
    have hne : ¬(k0 = k) := fun he => h.1 he.symm
    simp [lookupEntry, hne, ih h.2]

theorem setOrAppend_notMem {k : String} {d : List (String × PyVal)} (v : PyVal)
    (h : keyMem k d = false) : FlatDict.setOrAppend d k v = d ++ [(k, v)] := by
  induction d with
  | nil => rfl
  | cons kv rest ih =>
    obtain ⟨k0, v0⟩ := kv
    simp only [keyMem, Bool.or_eq_false_iff, decide_eq_false_iff_not] at h
    have hne : ¬(k0 = k) := fun he => h.1 he.symm
    simp [FlatDict.setOrAppend, hne, ih h.2]

theorem lookup_append_self {k : String} {pre : List (String × PyVal)} (x : PyVal)
    (h : keyMem k pre = false) : lookupEntry k (pre ++ [(k, x)]) = some x := by
  induction pre with
  | nil => simp [lookupEntry]
  | cons kv rest ih =>
    obtain ⟨k0, v0⟩ := kv
    simp only [keyMem, Bool.or_eq_false_iff, decide_eq_false_iff_not] at h
    have hne : ¬(k0 = k) := fun he => h.1 he.symm
    simp [lookupEntry, hne, ih h.2]

theorem setOrAppend_append_self {k : String} {pre : List (String × PyVal)}
    (x y : PyVal) (h : keyMem k pre = false) :
    FlatDict.setOrAppend (pre ++ [(k, x)]) k y = pre ++ [(k, y)] := by
  induction pre with
  | nil => simp [FlatDict.setOrAppend]
  | cons kv rest ih =>
    obtain ⟨k0, v0⟩ := kv
    simp only [keyMem, Bool.or_eq_false_iff, decide_eq_false_iff_not] at h
    have hne : ¬(k0 = k) := fun he => h.1 he.symm
    simp [FlatDict.setOrAppend, hne, ih h.2]

theorem ne_of_not_keyMem {k : String} {rest : List (String × PyVal)}
    (h : keyMem k rest = false) {kv : String × PyVal} (hm : kv ∈ rest) :
    kv.1 ≠ k := by
  intro he
  have : keyMem k rest = true := by
    subst he
    exact keyMem_of_mem (show (kv.1, kv.2) ∈ rest from by cases kv; exact hm)
  rw [this] at h
  cases h

theorem unflattenGo_append (acc : List (String × PyVal))
    (xs ys : List (List String × PyVal)) :
    FlatDict.unflattenGo acc (xs ++ ys)
      = match FlatDict.unflattenGo acc xs with
        | none => none
        | some acc2 => FlatDict.unflattenGo acc2 ys := by
  induction xs generalizing acc with
  | nil => simp [FlatDict.unflattenGo]
  | cons pv rest ih =>
    obtain ⟨p, v⟩ := pv
    simp only [List.cons_append, FlatDict.unflattenGo]
    cases FlatDict.insertPath acc p v with
    | none => rfl
    | some acc2 => exact ih acc2

theorem flatten_paths_nonempty :
    ∀ (es : List (String × PyVal)), ∀ pv ∈ FlatDict.flatten es, pv.1 ≠ [] := by
  intro es
  induction es with
  | nil => intro pv h; simp [FlatDict.flatten] at h
  | cons kv rest ih =>
    obtain ⟨k, v⟩ := kv
    intro pv hpv
    cases v with
    | pyDict sub =>
      simp only [FlatDict.flatten, List.mem_append, List.mem_map] at hpv
      cases hpv with
      | inl h0 =>
        obtain ⟨q, _, hq⟩ := h0
        rw [← hq]
        simp
      | inr h0 => exact ih pv h0
    | pyBool b =>
      simp only [FlatDict.flatten, List.mem_cons] at hpv
      cases hpv with
      | inl h0 => rw [h0]; simp
      | inr h0 => exact ih pv h0
    | pyInt n =>
      simp only [FlatDict.flatten, List.mem_cons] at hpv
      cases hpv with
      | inl h0 => rw [h0]; simp
      | inr h0 => exact ih pv h0
    | pyFloat bits =>
      simp only [FlatDict.flatten, List.mem_cons] at hpv
      cases hpv with
      | inl h0 => rw [h0]; simp
      | inr h0 => exact ih pv h0
    | pyStr s =>
      simp only [FlatDict.flatten, List.mem_cons] at hpv
      cases hpv with
      | inl h0 => rw [h0]; simp
      | inr h0 => exact ih pv h0
    | pyEnum c t =>
      simp only [FlatDict.flatten, List.mem_cons] at hpv
      cases hpv with
      | inl h0 => rw [h0]; simp
      | inr h0 => exact ih pv h0
    | pyNone =>
      simp only [FlatDict.flatten, List.mem_cons] at hpv
      cases hpv with
      | inl h0 => rw [h0]; simp
      | inr h0 => exact ih pv h0
    | pyList xs =>
      simp only [FlatDict.flatten, List.mem_cons] at hpv
      cases hpv with
      | inl h0 => rw [h0]; simp
      | inr h0 => exact ih pv h0
    | pyTuple xs =>
      simp only [FlatDict.flatten, List.mem_cons] at hpv
      cases hpv with
      | inl h0 => rw [h0]; simp
      | inr h0 => exact ih pv h0


theorem unflatten_redirect :
    ∀ (ps : List (List String × PyVal)) (pre s : List (String × PyVal)) (k : String),
      keyMem k pre = false → (∀ pv ∈ ps, pv.1 ≠ []) →
      FlatDict.unflattenGo (pre ++ [(k, .pyDict s)])
          (ps.map (fun pv => (k :: pv.1, pv.2)))
        = match FlatDict.unflattenGo s ps with
          | none => none
          | some s2 => some (pre ++ [(k, .pyDict s2)]) := by
  intro ps
  induction ps with
  | nil => intro pre s k _ _; simp [FlatDict.unflattenGo]
  | cons pv rest ih =>
    intro pre s k hk hne
    obtain ⟨p, v⟩ := pv
    have hp : p ≠ [] := hne (p, v) (List.mem_cons_self _ _)
    cases p with
    | nil => exact absurd rfl hp
    | cons k1 p1 =>
      simp only [List.map_cons, FlatDict.unflattenGo, FlatDict.insertPath,
        lookup_append_self _ hk]
      cases hins : FlatDict.insertPath s (k1 :: p1) v with
      | none => simp [FlatDict.unflattenGo]
      | some s2 =>
        simp only [Option.map_some']
        rw [setOrAppend_append_self _ _ hk]
        exact ih pre s2 k hk (fun q hq => hne q (List.mem_cons_of_mem _ hq))

theorem unflatten_build (todo : List (String × PyVal)) :
    ∀ (done : List (String × PyVal)), refConforming todo = true →
      (∀ kv ∈ todo, keyMem kv.1 done = false) →
      FlatDict.unflattenGo done (FlatDict.flatten todo) = some (done ++ todo) :=
  match todo with
  | [] => fun done _ _ => by simp [FlatDict.flatten, FlatDict.unflattenGo]
  | (k, .pyBool b) :: rest => fun done hconf hdis => by
    have hkdone := hdis _ (List.mem_cons_self _ _)
    simp only [refConforming, refConformingVal, Bool.and_eq_true, Bool.not_eq_true'] at hconf
    simp only [FlatDict.flatten, FlatDict.unflattenGo, FlatDict.insertPath]
    rw [setOrAppend_notMem _ hkdone]
    rw [unflatten_build rest _ hconf.2 (fun kv2 h2 => by
      rw [keyMem_append]
      have h2k : kv2.1 ≠ k := ne_of_not_keyMem hconf.1.1 h2
      simp [keyMem, hdis kv2 (List.mem_cons_of_mem _ h2), h2k])]
    simp
  | (k, .pyInt n) :: rest => fun done hconf hdis => by
    have hkdone := hdis _ (List.mem_cons_self _ _)
    simp only [refConforming, refConformingVal, Bool.and_eq_true, Bool.not_eq_true'] at hconf
    simp only [FlatDict.flatten, FlatDict.unflattenGo, FlatDict.insertPath]
    rw [setOrAppend_notMem _ hkdone]
    rw [unflatten_build rest _ hconf.2 (fun kv2 h2 => by
      rw [keyMem_append]
      have h2k : kv2.1 ≠ k := ne_of_not_keyMem hconf.1.1 h2
      simp [keyMem, hdis kv2 (List.mem_cons_of_mem _ h2), h2k])]
    simp
  | (k, .pyFloat bits) :: rest => fun done hconf hdis => by
    have hkdone := hdis _ (List.mem_cons_self _ _)
    simp only [refConforming, refConformingVal, Bool.and_eq_true, Bool.not_eq_true'] at hconf
    simp only [FlatDict.flatten, FlatDict.unflattenGo, FlatDict.insertPath]
    rw [setOrAppend_notMem _ hkdone]
    rw [unflatten_build rest _ hconf.2 (fun kv2 h2 => by
      rw [keyMem_append]
      have h2k : kv2.1 ≠ k := ne_of_not_keyMem hconf.1.1 h2
      simp [keyMem, hdis kv2 (List.mem_cons_of_mem _ h2), h2k])]
    simp
  | (k, .pyStr sv) :: rest => fun done hconf hdis => by
    have hkdone := hdis _ (List.mem_cons_self _ _)
    simp only [refConforming, refConformingVal, Bool.and_eq_true, Bool.not_eq_true'] at hconf
    simp only [FlatDict.flatten, FlatDict.unflattenGo, FlatDict.insertPath]
    rw [setOrAppend_notMem _ hkdone]
    rw [unflatten_build rest _ hconf.2 (fun kv2 h2 => by
      rw [keyMem_append]
      have h2k : kv2.1 ≠ k := ne_of_not_keyMem hconf.1.1 h2
      simp [keyMem, hdis kv2 (List.mem_cons_of_mem _ h2), h2k])]
    simp
  | (k, .pyEnum ec et) :: rest => fun done hconf hdis => by
    have hkdone := hdis _ (List.mem_cons_self _ _)
    simp only [refConforming, refConformingVal, Bool.and_eq_true, Bool.not_eq_true'] at hconf
    simp only [FlatDict.flatten, FlatDict.unflattenGo, FlatDict.insertPath]
    rw [setOrAppend_notMem _ hkdone]
    rw [unflatten_build rest _ hconf.2 (fun kv2 h2 => by
      rw [keyMem_append]
      have h2k : kv2.1 ≠ k := ne_of_not_keyMem hconf.1.1 h2
      simp [keyMem, hdis kv2 (List.mem_cons_of_mem _ h2), h2k])]
    simp
  | (k, .pyList xs) :: rest => fun done hconf hdis => by
    have hkdone := hdis _ (List.mem_cons_self _ _)
    simp only [refConforming, refConformingVal, Bool.and_eq_true, Bool.not_eq_true'] at hconf
    simp only [FlatDict.flatten, FlatDict.unflattenGo, FlatDict.insertPath]
    rw [setOrAppend_notMem _ hkdone]
    rw [unflatten_build rest _ hconf.2 (fun kv2 h2 => by
      rw [keyMem_append]
      have h2k : kv2.1 ≠ k := ne_of_not_keyMem hconf.1.1 h2
      simp [keyMem, hdis kv2 (List.mem_cons_of_mem _ h2), h2k])]
    simp
  | (k, .pyTuple xs) :: rest => fun done hconf hdis => by
    have hkdone := hdis _ (List.mem_cons_self _ _)
    simp only [refConforming, refConformingVal, Bool.and_eq_true, Bool.not_eq_true'] at hconf
    simp only [FlatDict.flatten, FlatDict.unflattenGo, FlatDict.insertPath]
    rw [setOrAppend_notMem _ hkdone]
    rw [unflatten_build rest _ hconf.2 (fun kv2 h2 => by
      rw [keyMem_append]
      have h2k : kv2.1 ≠ k := ne_of_not_keyMem hconf.1.1 h2
      simp [keyMem, hdis kv2 (List.mem_cons_of_mem _ h2), h2k])]
    simp
  | (k, .pyNone) :: rest => fun done hconf hdis => by
    simp [refConforming, refConformingVal] at hconf
  | (k, .pyDict sub) :: rest => fun done hconf hdis => by
    have hkdone : keyMem k done = false := hdis _ (List.mem_cons_self _ _)
    have hdisrest : ∀ kv2 ∈ rest, keyMem kv2.1 done = false :=
      fun kv2 h2 => hdis kv2 (List.mem_cons_of_mem _ h2)
    simp only [refConforming, refConformingVal, Bool.and_eq_true, Bool.not_eq_true'] at hconf
    have hkrest : keyMem k rest = false := hconf.1.1
    have hsubne : sub.isEmpty = false := hconf.1.2.1
    have hsubconf : refConforming sub = true := hconf.1.2.2
    have hrestconf : refConforming rest = true := hconf.2
    have hsubnil : sub ≠ [] := by
      intro he
      rw [he] at hsubne
      simp [List.isEmpty] at hsubne
    have hpaths := flatten_paths_nonempty sub
    have hbuildsub : FlatDict.unflattenGo [] (FlatDict.flatten sub) = some sub :=
      unflatten_build sub [] hsubconf (fun _ _ => rfl)
    simp only [FlatDict.flatten]
    rw [unflattenGo_append]
    cases hflsub : FlatDict.flatten sub with
    | nil =>
      rw [hflsub] at hbuildsub
      simp only [FlatDict.unflattenGo] at hbuildsub
      injection hbuildsub with he
      exact absurd he.symm hsubnil
    | cons p0v ps0 =>
      obtain ⟨p0, v0⟩ := p0v
      have hp0 : p0 ≠ [] := hpaths (p0, v0) (by rw [hflsub]; exact List.mem_cons_self _ _)
      cases p0 with
      | nil => exact absurd rfl hp0
      | cons q0 q1 =>
        rw [hflsub] at hbuildsub
        simp only [FlatDict.unflattenGo] at hbuildsub
        simp only [List.map_cons, FlatDict.unflattenGo, FlatDict.insertPath,
          lookup_none_of_not_keyMem hkdone]
        cases hins : FlatDict.insertPath [] (q0 :: q1) v0 with
        | none =>
          rw [hins] at hbuildsub
          simp at hbuildsub
        | some s1 =>
          rw [hins] at hbuildsub
          simp only [Option.map_some'] at hbuildsub ⊢
          rw [unflatten_redirect ps0 done s1 k hkdone
            (fun q hq => hpaths q (by rw [hflsub]; exact List.mem_cons_of_mem _ hq))]
          rw [hbuildsub]
          show FlatDict.unflattenGo (done ++ [(k, .pyDict sub)]) (FlatDict.flatten rest)
            = some (done ++ (k, .pyDict sub) :: rest)
          have hd2 : ∀ kv2 ∈ rest, keyMem kv2.1 (done ++ [(k, PyVal.pyDict sub)]) = false :=
            fun kv2 h2 => by
              rw [keyMem_append]
              have h2k : kv2.1 ≠ k := ne_of_not_keyMem hkrest h2
              simp [keyMem, hdisrest kv2 h2, h2k]
          rw [unflatten_build rest (done ++ [(k, PyVal.pyDict sub)]) hrestconf hd2]
          simp
termination_by sizeOf todo
decreasing_by all_goals (simp_wf <;> omega)

/-- C6.  Flatten round-trip: for every reference-conforming nested record
(a nested dict with pairwise-distinct keys whose leaves are non-dict,
non-None values), unflattening the flattened record rebuilds it exactly;
the `some` result also records that `unflatten` raises no exception on such
input. -/
theorem flatten_roundtrip :
    ∀ x : List (String × PyVal), refConforming x = true →
      FlatDict.unflatten (FlatDict.flatten x) = some x := by
  intro x hx
  unfold FlatDict.unflatten
  exact unflatten_build x [] hx (fun _ _ => rfl)

/-- Witness for C6: a two-level record with dict, int, bool and string
leaves round-trips. -/
theorem flatten_roundtrip_witness :
    FlatDict.unflatten (FlatDict.flatten
      [("a", .pyDict [("b", .pyInt 1), ("c", .pyBool true)]), ("d", .pyStr "s")])
      = some [("a", .pyDict [("b", .pyInt 1), ("c", .pyBool true)]), ("d", .pyStr "s")] :=
  flatten_roundtrip
    [("a", .pyDict [("b", .pyInt 1), ("c", .pyBool true)]), ("d", .pyStr "s")] (by decide)

end T0VE
